import Mathlib

/-! FSUIPC offset registry and batched read/decode cycle

A shallow embedding of `src/FSUIPC.cc` (the node binding of the FSUIPC
simulator link) and the properties of its offset registry (`FSUIPC::Add`,
`FSUIPC::Remove`), of the process cycle (`ProcessAsyncWorker::Execute`,
`HandleOKCallback`, `HandleErrorCallback`) and of the decoder
(`ProcessAsyncWorker::GetValue`, `get_size_of_type`).

Conventions of the embedding

* `DWORD` values are naturals below `2 ^ 32`; the C conversions `(int)x` and
  `(DWORD)x` are `toInt32` and `toDWORD` (wrap-around, as on the two's
  complement target the binding is built for).
* A pointer into raw memory (`void* data`) is the list of the bytes that can
  be read starting at that address: the buffer followed by whatever memory
  lies behind it.
* Behaviour the C++ standard leaves undefined (dereferencing `end()`, reading
  outside mapped memory, signed overflow of an `int`, indexing `pszErrors`
  out of bounds) is an explicit `undefined`/`none` result; so is the end of
  the process when the engine refuses to allocate an array.
* JavaScript strings are Lean strings (well-formed Unicode).
-/

namespace FSUIPC

/-! ## Machine integers -/

/-- Conversion of an integer to a 32-bit `int` (wrap-around). -/
def toInt32 (n : Int) : Int :=
  let m := n % 2 ^ 32
  if m < 2 ^ 31 then m else m - 2 ^ 32

/-- Conversion of an integer to a `DWORD` (unsigned 32-bit, wrap-around). -/
def toDWORD (n : Int) : Nat :=
  (n % 2 ^ 32).toNat

/-- Largest value of an `int`. -/
def INT_MAX : Nat := 2147483647

/-! ## The error table -/

/-- The table `pszErrors` of the sixteen gateway messages. -/
def pszErrors : List String :=
  [ "Okay",
    "Attempt to Open when already Open",
    "Cannot link to FSUIPC or WideClient",
    "Failed to Register common message with Windows",
    "Failed to create Atom for mapping filename",
    "Failed to create a file mapping object",
    "Failed to open a view to the file map",
    "Incorrect version of FSUIPC, or not FSUIPC",
    "Sim is not version requested",
    "Call cannot execute, link not Open",
    "Call cannot execute: no requests accumulated",
    "IPC timed out all retries",
    "IPC sendmessage failed all retries",
    "IPC request contains bad data",
    "Maybe running on WideClient, but FS not running on Server, or wrong FSUIPC",
    "Read or Write request cannot be added, memory for Process is full" ]

/-! ## JavaScript values -/

/-- The JavaScript values the binding receives as arguments and hands
back unchanged. `number n` is a Number with the integral value `n` (other
than `-0`); `other tag` is any other value (a non-integral Number, `null`,
an object, ...). -/
inductive JsValue where
  | undefined
  | boolean (b : Bool)
  | number (n : Int)
  | string (s : String)
  | other (tag : Nat)
  deriving DecidableEq, Repr

/-- The test `v->IsString()`. -/
def JsValue.IsString : JsValue → Bool
  | .string _ => true
  | _ => false

/-- The test `v->IsUint32()`: a Number with an integral value in `[0, 2^32)`. -/
def JsValue.IsUint32 : JsValue → Bool
  | .number n => decide (0 ≤ n ∧ n < 2 ^ 32)
  | _ => false

/-- The test `v->IsInt32()`: a Number with an integral value in `[-2^31, 2^31)`. -/
def JsValue.IsInt32 : JsValue → Bool
  | .number n => decide (-(2 ^ 31) ≤ n ∧ n < 2 ^ 31)
  | _ => false

/-- The conversion `v->Uint32Value()` (the `ToUint32` conversion of an integral Number; the
binding applies it only to values that passed `IsUint32`). -/
def JsValue.Uint32Value : JsValue → Nat
  | .number n => toDWORD n
  | _ => 0

/-- The conversion `v->Int32Value()` (the `ToInt32` conversion of an integral Number; the
binding applies it only to values that passed `IsInt32`). -/
def JsValue.Int32Value : JsValue → Int
  | .number n => toInt32 n
  | _ => 0

/-- The construction `std::string(*Nan::Utf8String(v))`: the string is built
from a `char*`, so it stops at the first NUL character. -/
def c_str (s : String) : String :=
  String.mk (s.data.takeWhile (fun c => c != Char.ofNat 0))

/-- The text of a JavaScript string argument. -/
def JsValue.Utf8String : JsValue → String
  | .string s => s
  | _ => ""

/-- What a binding method throws. -/
inductive Thrown where
  | Error (message : String)
  | TypeError (message : String)
  deriving DecidableEq, Repr

/-! ## The type descriptor -/

/-- Modelled from the spec: the enumeration `Type` of `FSUIPC.h` (a header
that is not part of the given sources). Its thirteen enumerators are the ones
the spec lists and `InitType` exports, numbered from 0 in that order; a value
of type `Type` is the underlying `int`, so a cast `(Type)n` of any other
number is an unrecognized value. -/
abbrev FsType := Int

namespace FsType
def Byte : FsType := 0
def SByte : FsType := 1
def Int16 : FsType := 2
def Int32 : FsType := 3
def Int64 : FsType := 4
def UInt16 : FsType := 5
def UInt32 : FsType := 6
def UInt64 : FsType := 7
def Double : FsType := 8
def Single : FsType := 9
def ByteArray : FsType := 10
def String : FsType := 11
def BitArray : FsType := 12
end FsType

/-- The function `get_size_of_type`. -/
def get_size_of_type (type : FsType) : Nat :=
  if type = FsType.Byte ∨ type = FsType.SByte then 1
  else if type = FsType.Int16 ∨ type = FsType.UInt16 then 2
  else if type = FsType.Int32 ∨ type = FsType.UInt32 then 4
  else if type = FsType.Int64 ∨ type = FsType.UInt64 then 8
  else if type = FsType.Double then 8
  else if type = FsType.Single then 4
  else 0

/-! ## The offset registry -/

/-- The record `Offset` (`FSUIPC.h`): `{name, type, offset, size, dest}`;
`dest` is the address `malloc` returned. -/
structure Offset where
  name : String
  type : FsType
  offset : Nat
  size : Nat
  dest : Nat
  deriving DecidableEq, Repr

/-- The member `offsets`, a `std::map<std::string, Offset>`, as the list of
its nodes in iteration (key) order. -/
abbrev Registry := List (String × Offset)

/-- The key order `std::less<std::string>` of the map: lexicographic. -/
def less (a b : String) : Bool :=
  decide (a.data < b.data)

/-- The lookup `offsets.find(name)`; `none` is the iterator `end()`. -/
def Registry.find : Registry → String → Option Offset
  | [], _ => none
  | (k, v) :: rest, name => if k = name then some v else Registry.find rest name

/-- The assignment `offsets[name] = value`: assigns to the node of key `name`, inserting it
at its place in key order when there is none. -/
def Registry.assign : Registry → String → Offset → Registry
  | [], name, value => [(name, value)]
  | (k, v) :: rest, name, value =>
    if less name k then (name, value) :: (k, v) :: rest
    else if name = k then (name, value) :: rest
    else (k, v) :: Registry.assign rest name value

/-- The removal `offsets.erase(offsets.find(name))` for a key that is found. -/
def Registry.erase : Registry → String → Registry
  | [], _ => []
  | (k, v) :: rest, name => if k = name then rest else (k, v) :: Registry.erase rest name

/-- The object `FSUIPC::Add` and `FSUIPC::Remove` return: the properties
`name`, `offset`, `type` and `size`. -/
structure Description where
  name : String
  offset : JsValue
  type : JsValue
  size : JsValue
  deriving DecidableEq, Repr

/-- The outcome of a registry method (`FSUIPC::Add`, `FSUIPC::Remove`): an
exception, the returned description together with the registry left behind,
or undefined behaviour. -/
inductive Outcome where
  | threw (e : Thrown)
  | returned (offsets : Registry) (obj : Description)
  | undefined
  deriving DecidableEq, Repr

/-- The method `FSUIPC::Add`, on the registry `offsets` and the arguments
`info`; `malloc` is the allocator. -/
def Add (offsets : Registry) (info : List JsValue) (malloc : Nat → Nat) : Outcome :=
  if info.length < 3 then
    .threw (.Error "FSUIPC.Add: requires at least 3 arguments")
  else if !(info.getD 0 .undefined).IsString then
    .threw (.TypeError "FSUIPC.Add: expected first argument to be string")
  else if !(info.getD 1 .undefined).IsUint32 then
    .threw (.TypeError "FSUIPC.Add: expected second argument to be uint")
  else if !(info.getD 2 .undefined).IsInt32 then
    .threw (.TypeError "FSUIPC.Add: expected third argument to be int")
  else
    let name := c_str (info.getD 0 .undefined).Utf8String
    let offset := (info.getD 1 .undefined).Uint32Value
    let type : FsType := (info.getD 2 .undefined).Int32Value
    let finish (size : Nat) : Outcome :=
      if size = 0 then
        .threw (.TypeError "FSUIPC.Add: expected third argument to be a type")
      else
        .returned (Registry.assign offsets name ⟨name, type, offset, size, malloc size⟩)
          { name := name
            offset := info.getD 1 .undefined
            type := .number (toInt32 type)
            size := .number (toInt32 size) }
    if type = FsType.ByteArray ∨ type = FsType.BitArray ∨ type = FsType.String then
      if info.length < 4 then
        .threw (.TypeError
          "FSUIPC.Add: requires at least 4 arguments if type is byteArray, bitArray or string")
      else if !(info.getD 3 .undefined).IsUint32 then
        .threw (.TypeError "FSUIPC.Add: expected fourth argument to be uint")
      else
        finish (toDWORD (toInt32 (info.getD 3 .undefined).Uint32Value))
    else
      finish (get_size_of_type type)

/-- The method `FSUIPC::Remove`. The iterator `find` returns is dereferenced
and erased without a comparison with `end()`. -/
def Remove (offsets : Registry) (info : List JsValue) : Outcome :=
  if info.length ≠ 1 then
    .threw (.Error "FSUIPC.Remove: requires one argument")
  else if !(info.getD 0 .undefined).IsString then
    .threw (.TypeError "FSUIPC.Remove: expected first argument to be string")
  else
    let name := c_str (info.getD 0 .undefined).Utf8String
    match Registry.find offsets name with
    | none => .undefined
    | some second =>
      .returned (Registry.erase offsets name)
        { name := second.name
          offset := .number (toInt32 second.offset)
          type := .number (toInt32 second.type)
          size := .number (toInt32 second.size) }

/-! ## The decoder -/

/-- An element of a JavaScript array built by `GetValue`: a slot never
assigned (`hole`), a boolean or an integral number. -/
inductive JsElem where
  | hole
  | boolean (b : Bool)
  | number (n : Int)
  deriving DecidableEq, Repr

/-- The JavaScript values `GetValue` creates. `number n` is a Number with
the integral value `n`; `ieee width bits` is the Number held by a `double`
(width 64) or a `float` (width 32) with the given bit pattern; `string s` is
the string made from a `std::string`; `utf8 bytes` is the string
`NewFromUtf8` makes from the given bytes. -/
inductive Decoded where
  | undefined
  | number (n : Int)
  | ieee (width : Nat) (bits : Nat)
  | string (s : String)
  | utf8 (bytes : List Nat)
  | array (elems : List JsElem)
  deriving DecidableEq, Repr

/-- The unsigned integer whose little-endian bytes are given. -/
def littleEndian : List Nat → Nat
  | [] => 0
  | b :: rest => b + 256 * littleEndian rest

/-- The read `*((uintN_t*)data)` of `width` bytes at `data` (little-endian
target); `none` when the read leaves the modelled memory. -/
def load (width : Nat) (data : List Nat) : Option Nat :=
  if data.length < width then none else some (littleEndian (data.take width))

/-- Reinterpretation of an unsigned `bits`-bit value as the signed integer
with the same bit pattern (two's complement). -/
def toSigned (bits : Nat) (v : Nat) : Int :=
  if v < 2 ^ (bits - 1) then (v : Int) else (v : Int) - 2 ^ bits

/-- The function `std::to_string` of the C++ library on a 64-bit integer:
its decimal text. -/
def to_string (v : Int) : String :=
  toString v

/-- The bytes `NewFromUtf8(str)` takes from a `char*` without a length: the
ones before the first zero byte; `none` when the scan leaves the modelled
memory. -/
def c_string : List Nat → Option (List Nat)
  | [] => none
  | b :: rest => if b = 0 then some [] else (c_string rest).map (fun t => b :: t)

/-- The largest backing store the engine allocates for an array
(`FixedArray::kMaxLength`): on a 64-bit build `(128 MB * 8 - 8 - 16) / 8`,
that is `2^27 - 3` elements (engine versions without the `- 8` allow one
element more; every version refuses `2^27`). -/
def kMaxLength : Nat := 134217725

/-- The array `Nan::New<v8::Array>(length)`: the parameter is an `int`. The
engine preallocates the backing store: an array of `length` unassigned
slots, empty when `length` is negative; `none` when `length` is above
`kMaxLength`, where the engine ends the process with a fatal error. -/
def newArray (length : Int) : Option (List JsElem) :=
  if (kMaxLength : Int) < length then none
  else some (List.replicate length.toNat .hole)

/-- The store `arr->Set(i, v)`: assigns slot `i`, growing the array when `i` is past
its end. -/
def arraySet (arr : List JsElem) (i : Nat) (v : JsElem) : List JsElem :=
  if i < arr.length then arr.set i v
  else arr ++ List.replicate (i - arr.length) .hole ++ [v]

/-- The loop of the `BitArray` case, from the counter value `i` on; `fuel`
bounds the number of iterations left. `none` is undefined behaviour: a read
outside the modelled memory or the overflow of the `int` counter. -/
def bitLoop (bits : List Nat) (length : Nat) : Nat → Nat → List JsElem → Option (List JsElem)
  | 0, _, _ => none
  | fuel + 1, i, arr =>
    if i < length * 8 then
      let byte_index := i / 8
      let bit_index := i % 8
      let mask := 1 <<< bit_index
      match bits[byte_index]? with
      | none => none
      | some b =>
        let value := (b &&& mask) != 0
        let arr := arraySet arr i (.boolean value)
        if INT_MAX < i + 1 then none else bitLoop bits length fuel (i + 1) arr
    else some arr

/-- The loop of the `ByteArray` case, from the counter value `i` and the
pointer `bytes` on. -/
def byteLoop (length : Nat) : Nat → Nat → List Nat → List JsElem → Option (List JsElem)
  | 0, _, _, _ => none
  | fuel + 1, i, bytes, arr =>
    if i < length then
      match bytes with
      | [] => none
      | b :: rest =>
        let arr := arraySet arr i (.number b)
        if INT_MAX < i + 1 then none else byteLoop length fuel (i + 1) rest arr
    else some arr

/-- The method `ProcessAsyncWorker::GetValue(type, data, length)`; `data` is
the memory readable at the pointer. `none` is undefined behaviour or the end
of the process. -/
def GetValue (type : FsType) (data : List Nat) (length : Nat) : Option Decoded :=
  if type = FsType.Byte then (load 1 data).map (fun (v : Nat) => Decoded.number v)
  else if type = FsType.SByte then
    (load 1 data).map (fun (v : Nat) => Decoded.number (toSigned 8 v))
  else if type = FsType.Int16 then
    (load 2 data).map (fun (v : Nat) => Decoded.number (toSigned 16 v))
  else if type = FsType.Int32 then
    (load 4 data).map (fun (v : Nat) => Decoded.number (toSigned 32 v))
  else if type = FsType.Int64 then
    (load 8 data).map (fun (v : Nat) => Decoded.string (to_string (toSigned 64 v)))
  else if type = FsType.UInt16 then (load 2 data).map (fun (v : Nat) => Decoded.number v)
  else if type = FsType.UInt32 then (load 4 data).map (fun (v : Nat) => Decoded.number v)
  else if type = FsType.UInt64 then
    (load 8 data).map (fun (v : Nat) => Decoded.string (to_string v))
  else if type = FsType.Double then (load 8 data).map (fun (v : Nat) => Decoded.ieee 64 v)
  else if type = FsType.Single then (load 4 data).map (fun (v : Nat) => Decoded.ieee 32 v)
  else if type = FsType.String then
    (c_string data).map (fun (str : List Nat) => Decoded.utf8 str)
  else if type = FsType.BitArray then
    (newArray (toInt32 (length * 8))).bind (fun (arr : List JsElem) =>
      (bitLoop data length (length * 8 + 1) 0 arr).map
        (fun (arr : List JsElem) => Decoded.array arr))
  else if type = FsType.ByteArray then
    (newArray (toInt32 length)).bind (fun (arr : List JsElem) =>
      (byteLoop length (length + 1) 0 data arr).map
        (fun (arr : List JsElem) => Decoded.array arr))
  else some .undefined

/-! ## The process cycle -/

/-- A call the cycle makes to the Link gateway (`FSUIPC_User64.h`). -/
inductive GatewayCall where
  | FSUIPC_Read (dwOffset dwSize pDest : Nat)
  | FSUIPC_Process
  deriving DecidableEq, Repr

/-- What a gateway call gives back: its `BOOL` result and the code it stores
through `pdwResult`. -/
structure Reply where
  ok : Bool
  dwResult : Nat
  deriving DecidableEq, Repr

/-- A behaviour of the Link gateway: the reply to a call, given the calls
made before it. -/
abbrev Gateway := List GatewayCall → GatewayCall → Reply

/-- The state `ProcessAsyncWorker::Execute` leaves the worker in, with the
gateway calls it made: no error message set (`ok`), an error message and
`errorCode` set (`failed`), or undefined behaviour (`pszErrors` indexed past
its end). -/
inductive Executed where
  | ok (calls : List GatewayCall)
  | failed (calls : List GatewayCall) (errmsg : String) (errorCode : Int)
  | undefined (calls : List GatewayCall)
  deriving DecidableEq, Repr

/-- The two statements `SetErrorMessage(pszErrors[dwResult]); errorCode =
(int)dwResult;` followed by `return`. -/
def setError (calls : List GatewayCall) (dwResult : Nat) : Executed :=
  match pszErrors[dwResult]? with
  | some errmsg => .failed calls errmsg (toInt32 dwResult)
  | none => .undefined calls

/-- The body of `ProcessAsyncWorker::Execute` from the iterator position
`it` on (the nodes not yet visited), after the calls `calls`. -/
def readLoop (gw : Gateway) : Registry → List GatewayCall → Executed
  | [], calls =>
    let r := gw calls .FSUIPC_Process
    if !r.ok then setError (calls ++ [.FSUIPC_Process]) r.dwResult
    else .ok (calls ++ [.FSUIPC_Process])
  | (_, second) :: it, calls =>
    let call := GatewayCall.FSUIPC_Read second.offset second.size second.dest
    let r := gw calls call
    if !r.ok then setError (calls ++ [call]) r.dwResult
    else readLoop gw it (calls ++ [call])

/-- The method `ProcessAsyncWorker::Execute` on the copy it takes of the
registry. -/
def Execute (offsets : Registry) (gw : Gateway) : Executed :=
  readLoop gw offsets []

/-- The own properties of an object after the store
`Nan::Set(obj, key, value)`; `obj` is the list of its own properties in the
order they were created (which is not the order in which JavaScript
enumerates them: index-like names come first there). A store under
`__proto__` reaches the accessor of `Object.prototype` and creates no own
property; the prototype of the object is not modelled. -/
def objSet : List (String × Decoded) → String → Decoded → List (String × Decoded)
  | [], key, value => if key = "__proto__" then [] else [(key, value)]
  | (k, v) :: rest, key, value =>
    if key = "__proto__" then (k, v) :: rest
    else if k = key then (k, value) :: rest else (k, v) :: objSet rest key value

/-- The loop of `ProcessAsyncWorker::HandleOKCallback`; `memory p` is the
memory readable at the address `p`. -/
def decodeLoop (memory : Nat → List Nat) :
    Registry → List (String × Decoded) → Option (List (String × Decoded))
  | [], obj => some obj
  | (_, second) :: it, obj =>
    match GetValue second.type (memory second.dest) second.size with
    | none => none
    | some value => decodeLoop memory it (objSet obj second.name value)

/-- The method `ProcessAsyncWorker::HandleOKCallback`: the object the
promise is resolved with. -/
def HandleOKCallback (offsets : Registry) (memory : Nat → List Nat) :
    Option (List (String × Decoded)) :=
  decodeLoop memory offsets []

/-- The JavaScript class `FSUIPCError` of `InitError`: an `Error` with the
properties `message` and `code`. -/
structure FSUIPCError where
  message : String
  code : Int
  deriving DecidableEq, Repr

/-- The method `ProcessAsyncWorker::HandleErrorCallback`: the error the
promise is rejected with. -/
def HandleErrorCallback (errmsg : String) (errorCode : Int) : FSUIPCError :=
  { message := errmsg, code := errorCode }

/-- How the promise of a cycle is settled. -/
inductive Settled where
  | resolved (obj : List (String × Decoded))
  | rejected (error : FSUIPCError)
  deriving DecidableEq, Repr

/-- Modelled from the spec: the completion of a worker (`PromiseWorker` over
`Nan::AsyncWorker`, declared outside the given sources). After `Execute`,
`HandleOKCallback` runs when no error message was set and
`HandleErrorCallback` otherwise ("resolving to a name→value mapping or
rejecting with StructuredError"). The result is the gateway calls made and
the settlement (`none` for undefined behaviour), for a cycle during which no
registry method runs. -/
def Process (offsets : Registry) (gw : Gateway) (memory : Nat → List Nat) :
    List GatewayCall × Option Settled :=
  match Execute offsets gw with
  | .ok calls => (calls, (HandleOKCallback offsets memory).map .resolved)
  | .failed calls errmsg errorCode =>
    (calls, some (.rejected (HandleErrorCallback errmsg errorCode)))
  | .undefined calls => (calls, none)

/-! ## Interleaving of registry methods and cycle phases -/

/-- A completed cycle: the registry copy its `Execute` iterated (every node
of it was passed to `FSUIPC_Read`) and the object its `HandleOKCallback`
resolved. -/
structure Cycle where
  read : Registry
  obj : List (String × Decoded)
  deriving DecidableEq, Repr

/-- The binding object between steps: the registry, the registry copy read
by a cycle whose `Execute` returned without error and whose
`HandleOKCallback` has not run yet, and the cycles completed so far. -/
structure State where
  offsets : Registry
  inflight : Option Registry
  completed : List Cycle
  deriving DecidableEq, Repr

/-- The steps of the binding: the two registry methods (main thread) and
the two phases of a cycle (`Execute` on a worker thread, `HandleOKCallback`
later on the main thread). Each phase takes `offsets_mutex` for its own
body only, and `Add`/`Remove` do not take it. -/
inductive Step where
  | add (info : List JsValue) (malloc : Nat → Nat)
  | remove (info : List JsValue)
  | execute (gw : Gateway)
  | handleOK (memory : Nat → List Nat)

/-- One step; `none` when the step is not enabled or its behaviour is
undefined. -/
def step (s : State) : Step → Option State
  | .add info malloc =>
    match Add s.offsets info malloc with
    | .returned offsets _ => some { s with offsets := offsets }
    | .threw _ => some s
    | .undefined => none
  | .remove info =>
    match Remove s.offsets info with
    | .returned offsets _ => some { s with offsets := offsets }
    | .threw _ => some s
    | .undefined => none
  | .execute gw =>
    match s.inflight with
    | some _ => none
    | none =>
      match Execute s.offsets gw with
      | .ok _ => some { s with inflight := some s.offsets }
      | .failed _ _ _ => some s
      | .undefined _ => none
  | .handleOK memory =>
    match s.inflight with
    | none => none
    | some read =>
      match HandleOKCallback s.offsets memory with
      | none => none
      | some obj =>
        some { s with inflight := none, completed := s.completed ++ [⟨read, obj⟩] }

/-- A sequence of steps. -/
def run : State → List Step → Option State
  | s, [] => some s
  | s, st :: rest =>
    match step s st with
    | none => none
    | some s1 => run s1 rest

/-- The binding object after construction. -/
def State.initial : State :=
  { offsets := [], inflight := none, completed := [] }

/-! ## Definitions used to state the properties -/

/-- The invariant of a `std::map`: the nodes are in strictly increasing key
order (so no key occurs twice). -/
def Registry.Sorted (offsets : Registry) : Prop :=
  List.Pairwise (fun a b => a.1 < b.1) offsets

/-- The ten enumerators of fixed width. -/
def fixedWidthTypes : List FsType :=
  [FsType.Byte, FsType.SByte, FsType.Int16, FsType.Int32, FsType.Int64,
   FsType.UInt16, FsType.UInt32, FsType.UInt64, FsType.Double, FsType.Single]

/-- The canonical byte width the spec gives for a fixed-width type: 1 for
Byte/SByte, 2 for Int16/UInt16, 4 for Int32/UInt32/Single, 8 for
Int64/UInt64/Double. -/
def canonicalWidth (t : FsType) : Nat :=
  if t = FsType.Byte ∨ t = FsType.SByte then 1
  else if t = FsType.Int16 ∨ t = FsType.UInt16 then 2
  else if t = FsType.Int32 ∨ t = FsType.UInt32 ∨ t = FsType.Single then 4
  else 8

/-- The three enumerators whose size the caller declares. -/
def variableLengthTypes : List FsType :=
  [FsType.ByteArray, FsType.BitArray, FsType.String]

/-- The `FSUIPC_Read` call `Execute` makes for a node of the registry. -/
def readCall (e : String × Offset) : GatewayCall :=
  .FSUIPC_Read e.2.offset e.2.size e.2.dest

/-- The calls of a complete cycle over a registry: one read per node, in
iteration order, then the commit. -/
def cycleCalls (offsets : Registry) : List GatewayCall :=
  offsets.map readCall ++ [.FSUIPC_Process]

/-- Bit `i mod 8` of byte `i / 8` of a buffer (bit 0 the least
significant), as the spec words it. -/
def bitOf (buffer : List Nat) (i : Nat) : Bool :=
  decide (buffer.getD (i / 8) 0 / 2 ^ (i % 8) % 2 = 1)

/-- The decimal text of an integer, as the spec words it: a leading `-` for
a negative value, then the decimal digits of the absolute value, most
significant first and without leading zeros (`0` for zero). -/
def decimalText (v : Int) : String :=
  String.mk ((if v < 0 then ['-'] else []) ++
    (if v = 0 then ['0'] else (Nat.digits 10 v.natAbs).reverse.map Nat.digitChar))

/-! ## Machine-integer facts -/

theorem toDWORD_natCast (n : Nat) (h : n < 2 ^ 32) : toDWORD (n : Int) = n := by
  unfold toDWORD
  omega

theorem toInt32_natCast_small (n : Nat) (h : n < 2 ^ 31) : toInt32 (n : Int) = n := by
  unfold toInt32
  simp only
  split <;> omega

theorem toInt32_natCast_large (n : Nat) (h1 : 2 ^ 31 ≤ n) (h2 : n < 2 ^ 32) :
    toInt32 (n : Int) = (n : Int) - 2 ^ 32 := by
  unfold toInt32
  simp only
  split <;> omega

theorem toInt32_of_int32 (v : Int) (h1 : -(2 ^ 31) ≤ v) (h2 : v < 2 ^ 31) : toInt32 v = v := by
  unfold toInt32
  simp only
  split <;> omega

theorem toDWORD_toInt32_natCast (n : Nat) (h : n < 2 ^ 32) : toDWORD (toInt32 (n : Int)) = n := by
  unfold toDWORD toInt32
  simp only
  split <;> omega

theorem IsUint32_natCast (n : Nat) (h : n < 2 ^ 32) : (JsValue.number (n : Int)).IsUint32 = true := by
  simp only [JsValue.IsUint32, decide_eq_true_eq]
  omega

/-! ## Facts about the registry -/

theorem Registry.find_assign (offsets : Registry) (name : String) (value : Offset) :
    Registry.find (Registry.assign offsets name value) name = some value := by
  induction offsets with
  | nil => simp [Registry.assign, Registry.find]
  | cons head rest ih =>
    obtain ⟨k, v⟩ := head
    unfold Registry.assign
    by_cases h1 : less name k = true
    · simp [h1, Registry.find]
    · by_cases h2 : name = k
      · subst h2
        simp [h1, Registry.find]
      · have h3 : ¬ k = name := fun h => h2 h.symm
        simp [h1, h2, h3, Registry.find, ih]

theorem less_iff (a b : String) : less a b = true ↔ a < b := by
  simp only [less, decide_eq_true_eq]
  exact String.lt_iff_toList_lt.symm

theorem Registry.mem_assign (offsets : Registry) (name : String) (value : Offset)
    (p : String × Offset) (hp : p ∈ Registry.assign offsets name value) :
    p = (name, value) ∨ p ∈ offsets := by
  induction offsets with
  | nil =>
    simp only [Registry.assign, List.mem_singleton] at hp
    exact Or.inl hp
  | cons head rest ih =>
    obtain ⟨k, v⟩ := head
    unfold Registry.assign at hp
    split_ifs at hp with h1 h2
    · rcases List.mem_cons.1 hp with h | h
      · exact Or.inl h
      · exact Or.inr h
    · rcases List.mem_cons.1 hp with h | h
      · exact Or.inl h
      · exact Or.inr (List.mem_cons_of_mem _ h)
    · rcases List.mem_cons.1 hp with h | h
      · exact Or.inr (h ▸ List.mem_cons_self _ _)
      · rcases ih h with h3 | h3
        · exact Or.inl h3
        · exact Or.inr (List.mem_cons_of_mem _ h3)

theorem Registry.Sorted_assign (offsets : Registry) (name : String) (value : Offset)
    (h : Registry.Sorted offsets) : Registry.Sorted (Registry.assign offsets name value) := by
  induction offsets with
  | nil => simp [Registry.assign, Registry.Sorted]
  | cons head rest ih =>
    obtain ⟨k, v⟩ := head
    have hrest : Registry.Sorted rest := (List.pairwise_cons.1 h).2
    have hhead : ∀ p ∈ rest, k < p.1 := (List.pairwise_cons.1 h).1
    unfold Registry.assign
    split_ifs with h1 h2
    · have hlt : name < k := (less_iff name k).1 h1
      refine List.pairwise_cons.2 ⟨?_, h⟩
      intro p hp
      rcases List.mem_cons.1 hp with hp | hp
      · rw [hp]
        exact hlt
      · exact lt_trans hlt (hhead p hp)
    · refine List.pairwise_cons.2 ⟨?_, hrest⟩
      intro p hp
      rw [h2]
      exact hhead p hp
    · have hgt : k < name := by
        have hnlt : ¬ name < k := fun hlt => h1 ((less_iff name k).2 hlt)
        rcases lt_trichotomy name k with h3 | h3 | h3
        · exact absurd h3 hnlt
        · exact absurd h3 h2
        · exact h3
      refine List.pairwise_cons.2 ⟨?_, ih hrest⟩
      intro p hp
      rcases Registry.mem_assign rest name value p hp with hp | hp
      · rw [hp]
        exact hgt
      · exact hhead p hp

theorem Registry.find_eq_none_of_lt (offsets : Registry) (name : String)
    (h : ∀ p ∈ offsets, name < p.1) : Registry.find offsets name = none := by
  induction offsets with
  | nil => rfl
  | cons head rest ih =>
    obtain ⟨k, v⟩ := head
    have hk : ¬ k = name := by
      intro hk
      have hlt := h (k, v) (List.mem_cons_self _ _)
      rw [hk] at hlt
      exact lt_irrefl name hlt
    simp only [Registry.find, if_neg hk]
    exact ih (fun p hp => h p (List.mem_cons_of_mem _ hp))

/-- After the removal, a sorted registry has no node of key `name`. -/
theorem Registry.find_erase_self (offsets : Registry) (name : String)
    (h : Registry.Sorted offsets) : Registry.find (Registry.erase offsets name) name = none := by
  induction offsets with
  | nil => rfl
  | cons head rest ih =>
    obtain ⟨k, v⟩ := head
    have hrest : Registry.Sorted rest := (List.pairwise_cons.1 h).2
    have hhead : ∀ p ∈ rest, k < p.1 := (List.pairwise_cons.1 h).1
    by_cases hk : k = name
    · simp only [Registry.erase, if_pos hk]
      exact Registry.find_eq_none_of_lt rest name (fun p hp => hk ▸ hhead p hp)
    · simp only [Registry.erase, if_neg hk, Registry.find]
      exact ih hrest

/-- The removal leaves the node of every other key as it was. -/
theorem Registry.find_erase_other (offsets : Registry) (name other : String)
    (hne : other ≠ name) :
    Registry.find (Registry.erase offsets name) other = Registry.find offsets other := by
  induction offsets with
  | nil => rfl
  | cons head rest ih =>
    obtain ⟨k, v⟩ := head
    by_cases hk : k = name
    · have hko : ¬ k = other := fun h => hne (h.symm.trans hk)
      simp only [Registry.erase, if_pos hk, Registry.find, if_neg hko]
    · by_cases hko : k = other
      · simp only [Registry.erase, if_neg hk, Registry.find, if_pos hko]
      · simp only [Registry.erase, if_neg hk, Registry.find, if_neg hko]
        exact ih

/-! ## `FSUIPC::Add` on the fixed-width types -/

theorem Add_fixed (offsets : Registry) (name : String) (address : Nat) (t : FsType)
    (rest : List JsValue) (malloc : Nat → Nat)
    (haddr : address < 2 ^ 32) (ht : t ∈ fixedWidthTypes) :
    Add offsets (.string name :: .number address :: .number t :: rest) malloc =
      .returned
        (Registry.assign offsets (c_str name)
          ⟨c_str name, t, address, get_size_of_type t, malloc (get_size_of_type t)⟩)
        ⟨c_str name, .number address, .number t, .number (get_size_of_type t)⟩ := by
  have hu := IsUint32_natCast address haddr
  have hd := toDWORD_natCast address haddr
  simp only [fixedWidthTypes, List.mem_cons, List.mem_singleton, List.not_mem_nil, or_false] at ht
  rcases ht with rfl | rfl | rfl | rfl | rfl | rfl | rfl | rfl | rfl | rfl <;>
    simp [Add, JsValue.IsString, JsValue.IsInt32, JsValue.Uint32Value, JsValue.Int32Value,
      JsValue.Utf8String, hu, hd, FsType.Byte, FsType.SByte, FsType.Int16, FsType.Int32,
      FsType.Int64, FsType.UInt16, FsType.UInt32, FsType.UInt64, FsType.Double,
      FsType.Single, FsType.ByteArray, FsType.String, FsType.BitArray, get_size_of_type,
      toInt32]

theorem get_size_of_type_fixed (t : FsType) (ht : t ∈ fixedWidthTypes) :
    get_size_of_type t = canonicalWidth t := by
  simp only [fixedWidthTypes, List.mem_cons, List.mem_singleton, List.not_mem_nil, or_false] at ht
  rcases ht with rfl | rfl | rfl | rfl | rfl | rfl | rfl | rfl | rfl | rfl <;> decide

theorem get_size_of_type_unrecognized (v : Int) (hv : v < 0 ∨ 12 < v) :
    get_size_of_type v = 0 := by
  unfold get_size_of_type
  simp only [FsType.Byte, FsType.SByte, FsType.Int16, FsType.Int32, FsType.Int64,
    FsType.UInt16, FsType.UInt32, FsType.UInt64, FsType.Double, FsType.Single]
  dsimp only [FsType] at *
  split_ifs <;> first | rfl | omega

theorem IsInt32_iff (v : Int) :
    (JsValue.number v).IsInt32 = true ↔ (-(2 ^ 31) ≤ v ∧ v < 2 ^ 31) := by
  simp only [JsValue.IsInt32, decide_eq_true_eq]

theorem Add_unrecognized (offsets : Registry) (name : String) (address : Nat) (v : Int)
    (rest : List JsValue) (malloc : Nat → Nat)
    (haddr : address < 2 ^ 32) (hv : v < 0 ∨ 12 < v) :
    Add offsets (.string name :: .number address :: .number v :: rest) malloc =
        .threw (.TypeError "FSUIPC.Add: expected third argument to be a type") ∨
    Add offsets (.string name :: .number address :: .number v :: rest) malloc =
        .threw (.TypeError "FSUIPC.Add: expected third argument to be int") := by
  have hu := IsUint32_natCast address haddr
  by_cases hI : (JsValue.number v).IsInt32 = true
  · left
    have hr := (IsInt32_iff v).1 hI
    have hV : (JsValue.number v).Int32Value = v := toInt32_of_int32 v hr.1 hr.2
    have hsz := get_size_of_type_unrecognized v hv
    have hne : ¬ (v = FsType.ByteArray ∨ v = FsType.BitArray ∨ v = FsType.String) := by
      simp only [FsType.ByteArray, FsType.BitArray, FsType.String]
      omega
    simp [Add, JsValue.IsString, hu, hI, hV, hsz, hne]
  · right
    simp [Add, JsValue.IsString, hu, hI]

/-- C5. For every fixed-width type `t`, every string `name`, every unsigned
32-bit `address` and every optional fourth argument `extra` (absent, or any
value), `Add` succeeds; the entry it stores (under the name as a C string) and
the description it returns both have the size `get_size_of_type t`, which is
the canonical width of `t` (1, 2, 4 or 8). `get_size_of_type` is 0 for
ByteArray, String, BitArray and for every unrecognized type value, and `Add`
with an unrecognized type value throws a `TypeError`. -/
theorem add_fixed_width_resolves_canonical_size (offsets : Registry) (name : String)
    (address : Nat) (t : FsType) (extra : Option JsValue) (malloc : Nat → Nat)
    (haddr : address < 2 ^ 32) (ht : t ∈ fixedWidthTypes) :
    (∃ offsets1 stored,
      Add offsets ([.string name, .number address, .number t] ++ extra.toList) malloc =
        .returned offsets1
          ⟨c_str name, .number address, .number t, .number (canonicalWidth t)⟩ ∧
      Registry.find offsets1 (c_str name) = some stored ∧
      stored.size = canonicalWidth t ∧ stored.type = t ∧ stored.offset = address) ∧
    get_size_of_type t = canonicalWidth t ∧
    get_size_of_type FsType.ByteArray = 0 ∧
    get_size_of_type FsType.String = 0 ∧
    get_size_of_type FsType.BitArray = 0 ∧
    (∀ v : Int, v < 0 ∨ 12 < v → get_size_of_type v = 0) ∧
    (∀ v : Int, v < 0 ∨ 12 < v → ∃ message,
      Add offsets ([.string name, .number address, .number v] ++ extra.toList) malloc =
        .threw (.TypeError message)) := by
  have hsz := get_size_of_type_fixed t ht
  refine ⟨?_, hsz, by decide, by decide, by decide, get_size_of_type_unrecognized, ?_⟩
  · refine ⟨_, ⟨c_str name, t, address, canonicalWidth t, malloc (canonicalWidth t)⟩, ?_,
      Registry.find_assign offsets (c_str name) _, rfl, rfl, rfl⟩
    have h := Add_fixed offsets name address t extra.toList malloc haddr ht
    rw [hsz] at h
    exact h
  · intro v hv
    rcases Add_unrecognized offsets name address v extra.toList malloc haddr hv with h | h
    · exact ⟨_, h⟩
    · exact ⟨_, h⟩

/-- An instance of `add_fixed_width_resolves_canonical_size`: an `Int32`
offset registered with a stray fourth argument. -/
theorem add_fixed_width_resolves_canonical_size_witness :
    (1392 < 2 ^ 32 ∧ FsType.Int32 ∈ fixedWidthTypes) ∧
    ∃ offsets1 stored,
      Add [] ([.string "altitude", .number (1392 : Nat), .number FsType.Int32] ++
          (some (JsValue.number 99)).toList) (fun _ => 4096) =
        .returned offsets1
          ⟨c_str "altitude", .number (1392 : Nat), .number FsType.Int32,
            .number (canonicalWidth FsType.Int32)⟩ ∧
      Registry.find offsets1 (c_str "altitude") = some stored ∧
      stored.size = canonicalWidth FsType.Int32 ∧ stored.type = FsType.Int32 ∧
      stored.offset = 1392 :=
  ⟨⟨by decide, by decide⟩,
    (add_fixed_width_resolves_canonical_size [] "altitude" 1392 FsType.Int32
      (some (.number 99)) (fun _ => 4096) (by decide) (by decide)).1⟩

/-! ## `FSUIPC::Add` on the variable-length types -/

theorem variable_type_facts (t : FsType) (ht : t ∈ variableLengthTypes) :
    (JsValue.number t).IsInt32 = true ∧ (JsValue.number t).Int32Value = t ∧
    (t = FsType.ByteArray ∨ t = FsType.BitArray ∨ t = FsType.String) := by
  simp only [variableLengthTypes, List.mem_cons, List.mem_singleton, List.not_mem_nil,
    or_false] at ht
  rcases ht with rfl | rfl | rfl <;> decide

theorem Add_variable_no_size (offsets : Registry) (name : String) (address : Nat)
    (t : FsType) (malloc : Nat → Nat) (haddr : address < 2 ^ 32)
    (ht : t ∈ variableLengthTypes) :
    Add offsets [.string name, .number address, .number t] malloc =
      .threw (.TypeError
        "FSUIPC.Add: requires at least 4 arguments if type is byteArray, bitArray or string") := by
  have hu := IsUint32_natCast address haddr
  obtain ⟨hI, hT, hvar⟩ := variable_type_facts t ht
  simp [Add, JsValue.IsString, hu, hI, hT, hvar]

theorem Add_variable_bad_size (offsets : Registry) (name : String) (address : Nat)
    (t : FsType) (x : JsValue) (rest : List JsValue) (malloc : Nat → Nat)
    (haddr : address < 2 ^ 32) (ht : t ∈ variableLengthTypes) (hx : x.IsUint32 = false) :
    Add offsets (.string name :: .number address :: .number t :: x :: rest) malloc =
      .threw (.TypeError "FSUIPC.Add: expected fourth argument to be uint") := by
  have hu := IsUint32_natCast address haddr
  obtain ⟨hI, hT, hvar⟩ := variable_type_facts t ht
  have h3 : ¬ (rest.length + 1 + 1 + 1 + 1 < 3) := by omega
  have h4 : ¬ (rest.length + 1 + 1 + 1 + 1 < 4) := by omega
  simp [Add, JsValue.IsString, hu, hx, h3, h4, hI, hT, hvar]

theorem Add_variable_zero (offsets : Registry) (name : String) (address : Nat)
    (t : FsType) (rest : List JsValue) (malloc : Nat → Nat)
    (haddr : address < 2 ^ 32) (ht : t ∈ variableLengthTypes) :
    Add offsets (.string name :: .number address :: .number t :: .number 0 :: rest) malloc =
      .threw (.TypeError "FSUIPC.Add: expected third argument to be a type") := by
  have hu := IsUint32_natCast address haddr
  obtain ⟨hI, hT, hvar⟩ := variable_type_facts t ht
  have h3 : ¬ (rest.length + 1 + 1 + 1 + 1 < 3) := by omega
  have h4 : ¬ (rest.length + 1 + 1 + 1 + 1 < 4) := by omega
  have hz : (JsValue.number 0).IsUint32 = true := by decide
  have hv : toDWORD (toInt32 ((JsValue.number 0).Uint32Value : Nat)) = 0 := by decide
  simp [Add, JsValue.IsString, hu, hz, hv, h3, h4, hI, hT, hvar]

/-- With an explicit size `n`, `0 < n < 2^32`, `Add` on a variable-length
type stores an entry of size `n`; the description it returns reports
`(int)n`. -/
theorem Add_variable_sized (offsets : Registry) (name : String) (address : Nat)
    (t : FsType) (n : Nat) (rest : List JsValue) (malloc : Nat → Nat)
    (haddr : address < 2 ^ 32) (ht : t ∈ variableLengthTypes)
    (hn0 : 0 < n) (hn : n < 2 ^ 32) :
    Add offsets (.string name :: .number address :: .number t :: .number n :: rest) malloc =
      .returned
        (Registry.assign offsets (c_str name) ⟨c_str name, t, address, n, malloc n⟩)
        ⟨c_str name, .number address, .number t, .number (toInt32 n)⟩ := by
  have hu := IsUint32_natCast address haddr
  have hU : (JsValue.number (address : Int)).Uint32Value = address :=
    toDWORD_natCast address haddr
  have hnu := IsUint32_natCast n hn
  have hV : (JsValue.number (n : Int)).Uint32Value = n := toDWORD_natCast n hn
  have hnn := toDWORD_toInt32_natCast n hn
  have hn1 : ¬ n = 0 := by omega
  obtain ⟨hI, hT, hvar⟩ := variable_type_facts t ht
  have hTT : toInt32 t = t := hT
  have h3 : ¬ (rest.length + 1 + 1 + 1 + 1 < 3) := by omega
  have h4 : ¬ (rest.length + 1 + 1 + 1 + 1 < 4) := by omega
  simp [Add, JsValue.IsString, JsValue.Utf8String, hu, hU, hnu, hV, hnn, hn1, h3, h4, hI,
    hT, hTT, hvar]

/-- C4. `Add` of a `ByteArray` offset with the explicit size `2^31` succeeds
and stores an entry of size `2147483648`, but the description it returns
reports the size `-2147483648` (the size goes through `(int)size`). -/
theorem add_variable_description_size_wraps :
    Add [] [.string "x", .number 0, .number FsType.ByteArray, .number 2147483648]
        (fun _ => 4096) =
      .returned [("x", ⟨"x", FsType.ByteArray, 0, 2147483648, 4096⟩)]
        ⟨"x", .number 0, .number 10, .number (-2147483648)⟩ := by
  decide

/-! ## `FSUIPC::Remove` -/

/-- On a name that is registered, `Remove` returns the stored name, the
`(int)` conversions of the stored offset, type and size, and erases the
node. -/
theorem Remove_found (offsets : Registry) (name : String) (second : Offset)
    (h : Registry.find offsets (c_str name) = some second) :
    Remove offsets [.string name] =
      .returned (Registry.erase offsets (c_str name))
        ⟨second.name, .number (toInt32 second.offset), .number (toInt32 second.type),
          .number (toInt32 second.size)⟩ := by
  simp [Remove, JsValue.IsString, JsValue.Utf8String, h]

theorem Remove_missing (offsets : Registry) (name : String)
    (h : Registry.find offsets (c_str name) = none) :
    Remove offsets [.string name] = .undefined := by
  simp [Remove, JsValue.IsString, JsValue.Utf8String, h]

/-- C3. `Remove` called with a name that has no entry (here on the empty
registry) dereferences `end()`: its behaviour is undefined, and on a string
argument `Remove` never throws, so no `NotFound` error exists. -/
theorem remove_missing_name_never_throws :
    Remove [] [.string "x"] = .undefined ∧
    ∀ (offsets : Registry) (name : String) (e : Thrown),
      Remove offsets [.string name] ≠ .threw e := by
  refine ⟨by decide, ?_⟩
  intro offsets name e
  cases h : Registry.find offsets (c_str name) with
  | none => rw [Remove_missing offsets name h]; exact fun h => Outcome.noConfusion h
  | some second => rw [Remove_found offsets name second h]; exact fun h => Outcome.noConfusion h

/-- C6. An offset registered at the address `2^31`: `Add` returns the
address `2147483648` (its second argument), `Remove` of the same name
returns the address `-2147483648` (the stored offset through `(int)`). -/
theorem remove_description_address_differs :
    Add [] [.string "a", .number 2147483648, .number FsType.Byte] (fun _ => 4096) =
      .returned [("a", ⟨"a", FsType.Byte, 2147483648, 1, 4096⟩)]
        ⟨"a", .number 2147483648, .number 0, .number 1⟩ ∧
    Remove [("a", ⟨"a", FsType.Byte, 2147483648, 1, 4096⟩)] [.string "a"] =
      .returned [] ⟨"a", .number (-2147483648), .number 0, .number 1⟩ := by
  decide

/-! ## The `String` case of the decoder -/

theorem GetValue_String (data : List Nat) (length : Nat) :
    GetValue FsType.String data length =
      (c_string data).map (fun (str : List Nat) => Decoded.utf8 str) := rfl

/-- When one of the buffer bytes is zero, the decoded text is the part of
the buffer before its first zero byte, whatever lies behind the buffer. -/
theorem c_string_terminated (buffer behind : List Nat) (h : 0 ∈ buffer) :
    c_string (buffer ++ behind) = some (buffer.takeWhile (fun b => b != 0)) := by
  induction buffer with
  | nil => simp at h
  | cons b rest ih =>
    by_cases hb : b = 0
    · simp [c_string, hb]
    · have hrest : 0 ∈ rest := by
        rcases List.mem_cons.1 h with h0 | h0
        · exact absurd h0.symm hb
        · exact h0
      simp [c_string, hb, ih hrest]

/-- C7. A `String` entry of declared size 2 whose two buffer bytes are not
zero: the decoded text runs on into the memory behind the buffer (three
bytes here), differs when only that memory differs, and is undefined when
the buffer ends the readable memory. -/
theorem string_decode_reads_past_buffer :
    GetValue FsType.String ([65, 66] ++ [67, 0]) 2 = some (.utf8 [65, 66, 67]) ∧
    GetValue FsType.String ([65, 66] ++ [68, 0]) 2 = some (.utf8 [65, 66, 68]) ∧
    GetValue FsType.String [65, 66] 2 = none := by
  decide

/-! ## Registry methods between the phases of a cycle -/

/-- C2. The steps `add a`, `Execute`, `add b`, `HandleOKCallback`: the
cycle read the entry `a` only, and resolves an object with the keys `a` and
`b`. -/
theorem cycle_decodes_entry_it_did_not_read :
    ∃ (steps : List Step) (s : State), run State.initial steps = some s ∧
      ∃ c ∈ s.completed,
        c.read.map (fun e => e.2.name) = ["a"] ∧ c.obj.map Prod.fst = ["a", "b"] := by
  refine ⟨[.add [.string "a", .number 0, .number FsType.Byte] (fun _ => 16),
      .execute (fun _ _ => ⟨true, 0⟩),
      .add [.string "b", .number 1, .number FsType.Byte] (fun _ => 32),
      .handleOK (fun _ => [7])],
    ⟨[("a", ⟨"a", 0, 0, 1, 16⟩), ("b", ⟨"b", 0, 1, 1, 32⟩)], none,
      [⟨[("a", ⟨"a", 0, 0, 1, 16⟩)], [("a", .number 7), ("b", .number 7)]⟩]⟩,
    by decide, ⟨[("a", ⟨"a", 0, 0, 1, 16⟩)], [("a", .number 7), ("b", .number 7)]⟩,
    by decide, by decide, by decide⟩

/-! ## Gateway failures in a cycle -/

theorem cycleCalls_cons (e : String × Offset) (it : Registry) :
    cycleCalls (e :: it) = readCall e :: cycleCalls it := rfl

theorem pszErrors_get (c : Nat) (hc : c ≤ 15) : ∃ message, pszErrors[c]? = some message := by
  have h : c < pszErrors.length := by
    have : pszErrors.length = 16 := by decide
    omega
  exact ⟨pszErrors[c], List.getElem?_eq_getElem h⟩

theorem readLoop_fail (gw : Gateway) (c : Nat) (message : String)
    (hmsg : pszErrors[c]? = some message) :
    ∀ (it : Registry) (calls : List GatewayCall) (k : Nat), k ≤ it.length →
      (∀ j, j < k → (gw (calls ++ (cycleCalls it).take j)
        ((cycleCalls it).getD j .FSUIPC_Process)).ok = true) →
      gw (calls ++ (cycleCalls it).take k) ((cycleCalls it).getD k .FSUIPC_Process) =
        ⟨false, c⟩ →
      readLoop gw it calls =
        .failed (calls ++ (cycleCalls it).take (k + 1)) message (toInt32 c) := by
  intro it
  induction it with
  | nil =>
    intro calls k hk _ hfail
    have hk0 : k = 0 := by simpa using hk
    subst hk0
    simp only [cycleCalls, List.map_nil, List.nil_append, List.take_zero, List.append_nil,
      List.getD_cons_zero] at hfail
    simp [readLoop, hfail, setError, hmsg, cycleCalls]
  | cons e it ih =>
    intro calls k hk hok hfail
    obtain ⟨key, second⟩ := e
    cases k with
    | zero =>
      simp only [cycleCalls_cons, List.take_zero, List.append_nil, List.getD_cons_zero] at hfail
      simp only [readCall] at hfail
      simp [readLoop, hfail, setError, hmsg, cycleCalls_cons, readCall]
    | succ k =>
      have h0 := hok 0 (Nat.succ_pos k)
      simp only [cycleCalls_cons, List.take_zero, List.append_nil, List.getD_cons_zero,
        readCall] at h0
      have hk1 : k ≤ it.length := by simpa using hk
      have hok1 : ∀ j, j < k →
          (gw ((calls ++ [readCall (key, second)]) ++ (cycleCalls it).take j)
            ((cycleCalls it).getD j .FSUIPC_Process)).ok = true := by
        intro j hj
        have h := hok (j + 1) (Nat.succ_lt_succ hj)
        simpa [cycleCalls_cons, List.append_assoc] using h
      have hfail1 : gw ((calls ++ [readCall (key, second)]) ++ (cycleCalls it).take k)
          ((cycleCalls it).getD k .FSUIPC_Process) = ⟨false, c⟩ := by
        simpa [cycleCalls_cons, List.append_assoc] using hfail
      have hrec := ih (calls ++ [readCall (key, second)]) k hk1 hok1 hfail1
      simp only [readCall] at hrec
      simp [readLoop, h0, hrec, cycleCalls_cons, readCall, List.append_assoc]

/-- C1. A cycle over any registry in which the first `k` gateway calls
succeed and call `k + 1` fails with a code `c ≤ 15` (the read of entry
`k + 1` when `k` is less than the number of entries, the commit when all
reads succeeded): the calls made are exactly the first `k + 1` calls of the
cycle (the reads of the first `k + 1` entries and nothing else when a read
fails), and the promise is rejected with the error whose message is entry `c`
of `pszErrors` and whose code is `c`; no result object is produced. -/
theorem process_gateway_failure_rejects (offsets : Registry) (gw : Gateway)
    (memory : Nat → List Nat) (k c : Nat) (hc : c ≤ 15) (hk : k ≤ offsets.length)
    (hok : ∀ j, j < k → (gw ((cycleCalls offsets).take j)
      ((cycleCalls offsets).getD j .FSUIPC_Process)).ok = true)
    (hfail : gw ((cycleCalls offsets).take k)
      ((cycleCalls offsets).getD k .FSUIPC_Process) = ⟨false, c⟩) :
    ∃ message, pszErrors[c]? = some message ∧
      Process offsets gw memory =
        ((cycleCalls offsets).take (k + 1), some (.rejected ⟨message, c⟩)) ∧
      (k < offsets.length →
        (cycleCalls offsets).take (k + 1) = (offsets.take (k + 1)).map readCall) := by
  obtain ⟨message, hmsg⟩ := pszErrors_get c hc
  refine ⟨message, hmsg, ?_, ?_⟩
  · have h := readLoop_fail gw c message hmsg offsets [] k hk
      (by simpa using hok) (by simpa using hfail)
    have hcode : toInt32 (c : Int) = c := toInt32_natCast_small c (by omega)
    simp only [List.nil_append] at h
    simp [Process, Execute, h, HandleErrorCallback, hcode]
  · intro hlt
    rw [cycleCalls, List.take_append_of_le_length (by simpa using hlt), List.map_take]

/-- An instance of `process_gateway_failure_rejects`: three entries, the
read of the second one times out (code 11). -/
theorem process_gateway_failure_rejects_witness :
    Process [("a", ⟨"a", 0, 100, 1, 16⟩), ("b", ⟨"b", 3, 200, 4, 32⟩), ("c", ⟨"c", 0, 300, 1, 48⟩)]
        (fun calls _ => if calls.length = 1 then ⟨false, 11⟩ else ⟨true, 0⟩) (fun _ => [7]) =
      ([.FSUIPC_Read 100 1 16, .FSUIPC_Read 200 4 32],
        some (.rejected ⟨"IPC timed out all retries", 11⟩)) := by
  obtain ⟨message, hmsg, h, _⟩ := process_gateway_failure_rejects
    [("a", ⟨"a", 0, 100, 1, 16⟩), ("b", ⟨"b", 3, 200, 4, 32⟩), ("c", ⟨"c", 0, 300, 1, 48⟩)]
    (fun calls _ => if calls.length = 1 then ⟨false, 11⟩ else ⟨true, 0⟩) (fun _ => [7])
    1 11 (by decide) (by decide) (by decide) (by decide)
  have hm : message = "IPC timed out all retries" := by
    have h11 : pszErrors[11]? = some "IPC timed out all retries" := by decide
    rw [h11] at hmsg
    exact (Option.some.inj hmsg).symm
  rw [h, hm]
  rfl

/-! ## The array cases of the decoder -/

theorem set_at_length {α : Type} (done : List α) (x v : α) (tail : List α) :
    (done ++ x :: tail).set done.length v = done ++ v :: tail := by
  induction done with
  | nil => rfl
  | cons a done ih => simp [ih]

theorem arraySet_next (done : List JsElem) (i : Nat) (hi : done.length = i) (v : JsElem)
    (m : Nat) :
    arraySet (done ++ List.replicate (m + 1) .hole) i v =
      (done ++ [v]) ++ List.replicate m .hole := by
  subst hi
  have hlt : done.length < (done ++ List.replicate (m + 1) JsElem.hole).length := by
    simp
  unfold arraySet
  rw [if_pos hlt, List.replicate_succ, set_at_length]
  simp

theorem kMaxLength_le_INT_MAX : kMaxLength ≤ INT_MAX := by decide

theorem newArray_small (n : Nat) (h : n ≤ kMaxLength) :
    newArray (toInt32 (n : Int)) = some (List.replicate n .hole) := by
  have h1 : n < 2 ^ 31 := by
    unfold kMaxLength at h
    omega
  have h2 : ¬ ((kMaxLength : Int) < (n : Int)) := by omega
  rw [toInt32_natCast_small n h1, newArray, if_neg h2]
  simp

/-- When the engine does allocate an array for a length above `kMaxLength`
(the `int` parameter wrapped around), the length is above `INT_MAX`. -/
theorem newArray_large (n : Nat) (h : kMaxLength < n) (arr : List JsElem)
    (ha : newArray (toInt32 (n : Int)) = some arr) : INT_MAX < n := by
  unfold newArray at ha
  split at ha
  · exact absurd ha (by simp)
  · rename_i hle
    unfold toInt32 at hle
    unfold kMaxLength at h hle
    unfold INT_MAX
    simp only at hle
    split at hle <;> omega

/-- The mask test of the `BitArray` loop reads bit `k` of the byte. -/
theorem bit_test (b k : Nat) : ((b &&& (1 <<< k)) != 0) = decide (b / 2 ^ k % 2 = 1) := by
  rw [Nat.one_shiftLeft, ← Nat.testBit_to_div_mod]
  by_cases h : b.testBit k = true
  · rw [h]
    have hne : b &&& 2 ^ k ≠ 0 := by
      intro h0
      have hk := congrArg (fun x => x.testBit k) h0
      simp [Nat.testBit_and, h] at hk
    simpa using hne
  · have hf : b.testBit k = false := by simpa using h
    rw [hf]
    have hz : b &&& 2 ^ k = 0 := by
      apply Nat.eq_of_testBit_eq
      intro i
      simp only [Nat.testBit_and, Nat.zero_testBit, Nat.testBit_two_pow]
      by_cases hik : k = i
      · subst hik
        simp [hf]
      · simp [hik]
    simp [hz]

theorem byteLoop_spec (length : Nat) (hlen : length ≤ INT_MAX) (behind : List Nat) :
    ∀ (rest : List Nat) (fuel i : Nat) (done : List JsElem),
      done.length = i → i + rest.length = length → rest.length + 1 ≤ fuel →
      byteLoop length fuel i (rest ++ behind) (done ++ List.replicate rest.length .hole) =
        some (done ++ rest.map (fun (b : Nat) => JsElem.number b)) := by
  intro rest
  induction rest with
  | nil =>
    intro fuel i done _ hi hfuel
    obtain ⟨f, rfl⟩ : ∃ f, fuel = f + 1 := ⟨fuel - 1, by simp at hfuel; omega⟩
    have hnot : ¬ i < length := by simp at hi; omega
    simp [byteLoop, hnot]
  | cons b rest ih =>
    intro fuel i done hdone hi hfuel
    obtain ⟨f, rfl⟩ : ∃ f, fuel = f + 1 := ⟨fuel - 1, by omega⟩
    have hlt : i < length := by simp at hi; omega
    have hno : ¬ INT_MAX < i + 1 := by simp at hi; omega
    have hrec := ih f (i + 1) (done ++ [JsElem.number b]) (by simp [hdone])
      (by simp at hi; omega) (by simp at hfuel; omega)
    simp only [List.cons_append, List.length_cons, byteLoop, if_pos hlt, if_neg hno,
      arraySet_next done i hdone, hrec]
    simp

theorem byteLoop_overflow (length : Nat) (hlen : INT_MAX < length) :
    ∀ (fuel i : Nat) (bytes : List Nat) (arr : List JsElem), i ≤ INT_MAX →
      byteLoop length fuel i bytes arr = none := by
  intro fuel
  induction fuel with
  | zero => intro i bytes arr _; rfl
  | succ f ih =>
    intro i bytes arr hi
    have hlt : i < length := by omega
    cases bytes with
    | nil => simp [byteLoop, hlt]
    | cons b rest =>
      by_cases hov : INT_MAX < i + 1
      · simp [byteLoop, hlt, hov]
      · simp [byteLoop, hlt, hov, ih (i + 1) rest _ (by omega)]

theorem bitLoop_spec (bits : List Nat) (length : Nat) (hlen : length * 8 ≤ INT_MAX)
    (hmem : length ≤ bits.length) :
    ∀ (m fuel i : Nat) (done : List JsElem),
      done.length = i → i + m = length * 8 → m + 1 ≤ fuel →
      bitLoop bits length fuel i (done ++ List.replicate m .hole) =
        some (done ++ (List.range' i m).map (fun j => JsElem.boolean (bitOf bits j))) := by
  intro m
  induction m with
  | zero =>
    intro fuel i done _ hi hfuel
    obtain ⟨f, rfl⟩ : ∃ f, fuel = f + 1 := ⟨fuel - 1, by omega⟩
    have hnot : ¬ i < length * 8 := by omega
    simp [bitLoop, hnot]
  | succ m ih =>
    intro fuel i done hdone hi hfuel
    obtain ⟨f, rfl⟩ : ∃ f, fuel = f + 1 := ⟨fuel - 1, by omega⟩
    have hlt : i < length * 8 := by omega
    have hno : ¬ INT_MAX < i + 1 := by omega
    have hidx : i / 8 < bits.length := by omega
    have hget : bits[i / 8]? = some (bits.getD (i / 8) 0) := by
      rw [List.getD_eq_getElem?_getD, List.getElem?_eq_getElem hidx]
      rfl
    have hrec := ih f (i + 1) (done ++ [JsElem.boolean (bitOf bits i)]) (by simp [hdone])
      (by omega) (by omega)
    simp only [bitLoop, if_pos hlt, if_neg hno, hget, bit_test, arraySet_next done i hdone]
    rw [show (decide (bits.getD (i / 8) 0 / 2 ^ (i % 8) % 2 = 1)) = bitOf bits i from rfl, hrec]
    simp [List.range'_succ]

theorem bitLoop_overflow (bits : List Nat) (length : Nat) (hlen : INT_MAX < length * 8) :
    ∀ (fuel i : Nat) (arr : List JsElem), i ≤ INT_MAX →
      bitLoop bits length fuel i arr = none := by
  intro fuel
  induction fuel with
  | zero => intro i arr _; rfl
  | succ f ih =>
    intro i arr hi
    have hlt : i < length * 8 := by omega
    cases hb : bits[i / 8]? with
    | none => simp [bitLoop, hlt, hb]
    | some b =>
      by_cases hov : INT_MAX < i + 1
      · simp [bitLoop, hlt, hb, hov]
      · simp [bitLoop, hlt, hb, hov, ih (i + 1) _ (by omega)]

theorem GetValue_BitArray (data : List Nat) (length : Nat) :
    GetValue FsType.BitArray data length =
      (newArray (toInt32 (length * 8))).bind (fun (arr : List JsElem) =>
        (bitLoop data length (length * 8 + 1) 0 arr).map
          (fun (arr : List JsElem) => Decoded.array arr)) := rfl

theorem GetValue_ByteArray (data : List Nat) (length : Nat) :
    GetValue FsType.ByteArray data length =
      (newArray (toInt32 length)).bind (fun (arr : List JsElem) =>
        (byteLoop length (length + 1) 0 data arr).map
          (fun (arr : List JsElem) => Decoded.array arr)) := rfl

theorem GetValue_BitArray_small (n : Nat) (data : List Nat) (hn : n * 8 ≤ kMaxLength)
    (hmem : n ≤ data.length) :
    GetValue FsType.BitArray data n =
      some (.array ((List.range (n * 8)).map (fun j => JsElem.boolean (bitOf data j)))) := by
  have hint : n * 8 ≤ INT_MAX := Nat.le_trans hn kMaxLength_le_INT_MAX
  have h := bitLoop_spec data n hint hmem (n * 8) (n * 8 + 1) 0 [] rfl (by omega) (by omega)
  have ha : newArray (toInt32 ((n : Int) * 8)) = some (List.replicate (n * 8) .hole) := by
    have := newArray_small (n * 8) hn
    simpa using this
  rw [GetValue_BitArray, ha]
  simp only [List.nil_append] at h
  rw [Option.some_bind, h, List.range_eq_range']
  rfl

theorem GetValue_ByteArray_small (n : Nat) (buffer behind : List Nat) (hn : n ≤ kMaxLength)
    (hlen : buffer.length = n) :
    GetValue FsType.ByteArray (buffer ++ behind) n =
      some (.array (buffer.map (fun (b : Nat) => JsElem.number b))) := by
  have hint : n ≤ INT_MAX := Nat.le_trans hn kMaxLength_le_INT_MAX
  have h := byteLoop_spec n hint behind buffer (n + 1) 0 [] rfl (by omega) (by omega)
  rw [GetValue_ByteArray, newArray_small n hn]
  simp only [List.nil_append, hlen] at h
  rw [Option.some_bind, h]
  rfl

/-- Above `kMaxLength` elements the `BitArray` case yields no value: the
engine refuses the array, or (the `int` parameter wrapped around) the loop
counter overflows. -/
theorem GetValue_BitArray_large (n : Nat) (data : List Nat) (hn : kMaxLength < n * 8) :
    GetValue FsType.BitArray data n = none := by
  rw [GetValue_BitArray]
  cases ha : newArray (toInt32 ((n : Int) * 8)) with
  | none => rfl
  | some arr =>
    have hcast : ((n : Int) * 8) = ((n * 8 : Nat) : Int) := by simp
    rw [hcast] at ha
    have hov := newArray_large (n * 8) hn arr ha
    rw [Option.some_bind, bitLoop_overflow data n hov _ 0 arr (Nat.zero_le _)]
    rfl

/-- Above `kMaxLength` elements the `ByteArray` case yields no value. -/
theorem GetValue_ByteArray_large (n : Nat) (data : List Nat) (hn : kMaxLength < n) :
    GetValue FsType.ByteArray data n = none := by
  rw [GetValue_ByteArray]
  cases ha : newArray (toInt32 (n : Int)) with
  | none => rfl
  | some arr =>
    have hov := newArray_large n hn arr ha
    rw [Option.some_bind, byteLoop_overflow n hov _ 0 data arr (Nat.zero_le _)]
    rfl

/-- C9 (as stated, refuted). A `BitArray` entry of size `2^24`: the array
of `2^27` slots is above what the engine allocates, the process ends and no
sequence of booleans is produced. -/
theorem bitarray_decode_aborts_at_2_pow_24 :
    GetValue FsType.BitArray (List.replicate 16777216 0) 16777216 = none :=
  GetValue_BitArray_large 16777216 (List.replicate 16777216 0) (by decide)

/-- C9 (amended). For every `BitArray` entry of size `n` with
`n * 8 ≤ kMaxLength` (that is `n < 2^24`) and every buffer of `n` bytes
(whatever memory lies behind it), decoding yields a sequence of exactly
`n * 8` booleans whose element `i` is true exactly when bit `i mod 8` of
byte `i / 8` of the buffer is set, bit 0 being the least significant; size 1
with the byte `0b00000101` decodes to
`[true, false, true, false, false, false, false, false]`. -/
theorem bitarray_decode_bit_order (n : Nat) (buffer behind : List Nat)
    (hn : n * 8 ≤ kMaxLength) (hlen : buffer.length = n) :
    (∃ elems, GetValue FsType.BitArray (buffer ++ behind) n = some (.array elems) ∧
      elems.length = n * 8 ∧
      ∀ i, i < n * 8 →
        elems[i]? = some (.boolean (decide (buffer.getD (i / 8) 0 / 2 ^ (i % 8) % 2 = 1)))) ∧
    GetValue FsType.BitArray [5] 1 =
      some (.array [.boolean true, .boolean false, .boolean true, .boolean false,
        .boolean false, .boolean false, .boolean false, .boolean false]) := by
  refine ⟨⟨_, GetValue_BitArray_small n (buffer ++ behind) hn (by simp; omega), by simp, ?_⟩,
    by decide⟩
  intro i hi
  have hidx : i / 8 < buffer.length := by omega
  have hb : (buffer ++ behind)[i / 8]? = buffer[i / 8]? := List.getElem?_append_left hidx
  simp [hi, bitOf, hb]

/-- An instance of `bitarray_decode_bit_order`: two bytes followed by
unrelated memory. -/
theorem bitarray_decode_bit_order_witness :
    (2 * 8 ≤ kMaxLength ∧ [5, 128].length = 2) ∧
    ∃ elems, GetValue FsType.BitArray ([5, 128] ++ [255]) 2 = some (.array elems) ∧
      elems.length = 2 * 8 ∧
      ∀ i, i < 2 * 8 →
        elems[i]? = some (.boolean (decide ([5, 128].getD (i / 8) 0 / 2 ^ (i % 8) % 2 = 1))) :=
  ⟨⟨by decide, by decide⟩,
    (bitarray_decode_bit_order 2 [5, 128] [255] (by decide) (by decide)).1⟩

/-- C10 (as stated, refuted). A `ByteArray` entry of size `2^27`: the array
of `2^27` slots is above what the engine allocates, the process ends and no
sequence of integers is produced. -/
theorem bytearray_decode_aborts_at_2_pow_27 :
    GetValue FsType.ByteArray (List.replicate 134217728 0) 134217728 = none :=
  GetValue_ByteArray_large 134217728 (List.replicate 134217728 0) (by decide)

/-- C10 (amended). For every `ByteArray` entry of size `n ≤ kMaxLength`
(below `2^27`) and every buffer of bytes `[b0..bn-1]` (whatever memory lies
behind it), decoding yields a sequence of exactly `n` integers equal to
`[b0..bn-1]` in buffer order: element `i` is byte `i`, each in `0..255`. -/
theorem bytearray_decode_round_trip (n : Nat) (buffer behind : List Nat)
    (hn : n ≤ kMaxLength) (hlen : buffer.length = n) (hbytes : ∀ b ∈ buffer, b < 256) :
    ∃ elems, GetValue FsType.ByteArray (buffer ++ behind) n = some (.array elems) ∧
      elems = buffer.map (fun (b : Nat) => JsElem.number b) ∧
      elems.length = n ∧
      ∀ i, i < n → ∃ b, buffer[i]? = some b ∧ elems[i]? = some (.number b) ∧ b ≤ 255 := by
  refine ⟨_, GetValue_ByteArray_small n buffer behind hn hlen, rfl, by simp [hlen], ?_⟩
  intro i hi
  have hidx : i < buffer.length := by omega
  refine ⟨buffer[i], List.getElem?_eq_getElem hidx, by simp [hidx], ?_⟩
  have := hbytes buffer[i] (List.getElem_mem hidx)
  omega

/-- An instance of `bytearray_decode_round_trip`. -/
theorem bytearray_decode_round_trip_witness :
    GetValue FsType.ByteArray ([5, 0, 255] ++ [9]) 3 =
      some (.array [.number 5, .number 0, .number 255]) := by
  obtain ⟨elems, h, he, _⟩ := bytearray_decode_round_trip 3 [5, 0, 255] [9] (by decide)
    (by decide) (by decide)
  rw [h, he]
  rfl

/-! ## The 64-bit cases of the decoder -/

theorem toDigitsCore_eq_digits : ∀ (n fuel : Nat) (ds : List Char), 0 < n → n < fuel →
    Nat.toDigitsCore 10 fuel n ds = (Nat.digits 10 n).reverse.map Nat.digitChar ++ ds := by
  intro n
  induction n using Nat.strong_induction_on with
  | _ n ih =>
    intro fuel ds hpos hfuel
    obtain ⟨f, rfl⟩ : ∃ f, fuel = f + 1 := ⟨fuel - 1, by omega⟩
    have hd : Nat.digits 10 n = (n % 10) :: Nat.digits 10 (n / 10) :=
      Nat.digits_def' (by decide) hpos
    by_cases hq : n / 10 = 0
    · simp [Nat.toDigitsCore, hq, hd]
    · have hrec := ih (n / 10) (by omega) f (Nat.digitChar (n % 10) :: ds) (by omega) (by omega)
      simp [Nat.toDigitsCore, hq, hd, hrec]

theorem repr_eq_digits (n : Nat) (h : 0 < n) :
    Nat.repr n = String.mk ((Nat.digits 10 n).reverse.map Nat.digitChar) := by
  simp [Nat.repr, Nat.toDigits, toDigitsCore_eq_digits n (n + 1) [] h (by omega), List.asString]

theorem toString_int (v : Int) : toString v = decimalText v := by
  cases v with
  | ofNat m =>
    cases m with
    | zero => rfl
    | succ m =>
      have h := repr_eq_digits (m + 1) (by omega)
      have h1 : ¬ (Int.ofNat (m + 1) < 0) := by
        simp only [Int.ofNat_eq_coe]
        omega
      have h2 : ¬ (Int.ofNat (m + 1) = 0) := by
        simp only [Int.ofNat_eq_coe]
        omega
      show Nat.repr (m + 1) = _
      rw [h]
      unfold decimalText
      rw [if_neg h1, if_neg h2]
      rfl
  | negSucc m =>
    have h := repr_eq_digits (m + 1) (by omega)
    have h1 : Int.negSucc m < 0 := Int.negSucc_lt_zero m
    have h2 : ¬ (Int.negSucc m = 0) := by omega
    show "-" ++ Nat.repr (m + 1) = _
    rw [h]
    unfold decimalText
    rw [if_pos h1, if_neg h2]
    rfl

theorem to_string_eq_decimalText (v : Int) : to_string v = decimalText v :=
  toString_int v

theorem littleEndian_eq_ofDigits (b : List Nat) : littleEndian b = Nat.ofDigits 256 b := by
  induction b with
  | nil => rfl
  | cons x rest ih => rw [littleEndian, Nat.ofDigits_cons, ih]

theorem load_buffer (buffer behind : List Nat) :
    load buffer.length (buffer ++ behind) = some (Nat.ofDigits 256 buffer) := by
  have h : ¬ (buffer ++ behind).length < buffer.length := by simp
  rw [load, if_neg h, List.take_left', littleEndian_eq_ofDigits]
  rfl

theorem GetValue_Int64 (data : List Nat) (length : Nat) :
    GetValue FsType.Int64 data length =
      (load 8 data).map (fun (v : Nat) => Decoded.string (to_string (toSigned 64 v))) := rfl

theorem GetValue_UInt64 (data : List Nat) (length : Nat) :
    GetValue FsType.UInt64 data length =
      (load 8 data).map (fun (v : Nat) => Decoded.string (to_string v)) := rfl

/-- C8. For every 8-byte buffer `b` (whatever memory lies behind it), with
`u` the unsigned integer whose little-endian bytes are `b`: decoding `b` as
`Int64` yields the decimal text of the signed 64-bit integer `v` with the
same bit pattern (`-2^63 ≤ v < 2^63`, `v ≡ u` modulo `2^64`), decoding it as
`UInt64` yields the decimal text of `u < 2^64`; the bytes
`FF FF FF FF FF FF FF 7F` decode as `Int64` to `"9223372036854775807"`. -/
theorem int64_decode_is_decimal_text (b behind : List Nat) (hlen : b.length = 8)
    (hbytes : ∀ x ∈ b, x < 256) :
    (∃ v : Int, -(2 ^ 63) ≤ v ∧ v < 2 ^ 63 ∧ (v - (Nat.ofDigits 256 b : Nat)) % 2 ^ 64 = 0 ∧
      GetValue FsType.Int64 (b ++ behind) 8 = some (.string (decimalText v))) ∧
    (Nat.ofDigits 256 b < 2 ^ 64 ∧
      GetValue FsType.UInt64 (b ++ behind) 8 =
        some (.string (decimalText (Nat.ofDigits 256 b : Nat)))) ∧
    GetValue FsType.Int64 [255, 255, 255, 255, 255, 255, 255, 127] 8 =
      some (.string "9223372036854775807") := by
  have hload : load 8 (b ++ behind) = some (Nat.ofDigits 256 b) := by
    have h := load_buffer b behind
    rwa [hlen] at h
  have hlt : Nat.ofDigits 256 b < 2 ^ 64 := by
    have h := Nat.ofDigits_lt_base_pow_length (by decide : 1 < 256) hbytes
    rw [hlen] at h
    calc Nat.ofDigits 256 b < 256 ^ 8 := h
      _ = 2 ^ 64 := by norm_num
  refine ⟨⟨toSigned 64 (Nat.ofDigits 256 b), ?_, ?_, ?_, ?_⟩, ⟨hlt, ?_⟩, by decide⟩
  · unfold toSigned
    split <;> omega
  · unfold toSigned
    split <;> omega
  · unfold toSigned
    split <;> omega
  · rw [GetValue_Int64, hload, Option.map_some', to_string_eq_decimalText]
  · rw [GetValue_UInt64, hload, Option.map_some', to_string_eq_decimalText]

/-- An instance of `int64_decode_is_decimal_text`: the buffer of `-2`. -/
theorem int64_decode_is_decimal_text_witness :
    ([254, 255, 255, 255, 255, 255, 255, 255].length = 8 ∧
      ∀ x ∈ [254, 255, 255, 255, 255, 255, 255, 255], x < 256) ∧
    Nat.ofDigits 256 [254, 255, 255, 255, 255, 255, 255, 255] < 2 ^ 64 ∧
    GetValue FsType.UInt64 ([254, 255, 255, 255, 255, 255, 255, 255] ++ [1]) 8 =
      some (.string (decimalText
        (Nat.ofDigits 256 [254, 255, 255, 255, 255, 255, 255, 255] : Nat))) :=
  ⟨⟨by decide, by decide⟩,
    (int64_decode_is_decimal_text [254, 255, 255, 255, 255, 255, 255, 255] [1]
      (by decide) (by decide)).2.1⟩

end FSUIPC
